/-
Verification of the ssdeep fuzzy-hashing library (Go package `ssdeep`).

This file gives a shallow embedding, in Lean 4, of the final (Levenshtein-based)
variant of the package: the rolling-hash / piecewise-digest hashing core
(`ssdeepState.Write`, `ssdeepState.Sum`, `estimateBlockSize`, `sumWithFixedSize`,
`Bytes`, the non-seekable branch of `Stream` with its `streamReader` cache), and
the comparison side (`shrink`, `levenshtein`, `score`, `Compare`).

Modelling conventions:
  * Go `uint32` values are `Nat` reduced modulo 2^32 at every operation that can
    wrap (`% 4294967296`); `uint32` subtraction `a - b` is `(a + 2^32 - b%2^32) % 2^32`.
  * Go byte slices are `List Nat` (each entry a byte value); Go strings handed to
    `Compare`/`score` are Lean `String` / `List Char`.
  * Functions returning `(T, error)` become `Option T`; `none` is the error case.
  * The `for` loop in `estimateBlockSize` can fail to terminate (uint32 doubling
    wraps to 0), so it is embedded with explicit fuel; `none` means the loop did
    not exit.  Fuel 64 is shown to be exhaustive: the doubling trajectory reaches
    the absorbing value 0 within 33 iterations whenever it does not exit.
  * Go `int` (64-bit) multiplication wraps in two's complement; the block-size
    doubling inside `Compare` is therefore taken through `wrap64`.
  * `io.Copy(state, r)`: for `Bytes`/`sumWithFixedSize` the source is a
    `bytes.Reader`, which implements `io.WriterTo`, so `io.Copy` delegates to
    one single `state.Write` of the whole buffer — modelled as one
    `ssdeepWrite`.  The `streamReader` of the non-seekable `Stream` path has no
    `WriteTo`, so there `io.Copy` transfers through its 32768-byte buffer, one
    `state.Write` per chunk — modelled by `copyChunks`.
-/
import Mathlib

namespace Ssdeep

/-! ### Constants (part_001 lines 20-34) -/

def minBlockSize : Nat := 3
def windowSize : Nat := 7
def spamSumLength : Nat := 64
def base64Chars : List Char :=
  "ABCDEFGHIJKLMNOPQRSTUVWXYZabcdefghijklmnopqrstuvwxyz0123456789+/".data
def hashInit : Nat := 0x01234567
def minCachedSize : Nat := 128 * 1024

/-- The modulus of Go `uint32` arithmetic, 2^32. -/
def U32 : Nat := 4294967296

/-- Go `uint32` addition. -/
def add32 (a b : Nat) : Nat := (a + b) % U32

/-- Go `uint32` subtraction (wraparound). -/
def sub32 (a b : Nat) : Nat := (a + (U32 - b % U32)) % U32

/-- Go `uint32` multiplication. -/
def mul32 (a b : Nat) : Nat := (a * b) % U32

/-! ### Hashing state (part_001 lines 105-142)

`ssdeepState`: rolling hash words `h1,h2,h3`, 7-byte circular window, byte
counter `n`, piecewise accumulators `p1,p2`, output buffers `hash1,hash2`. -/

structure SsdeepState where
  blockSize : Nat
  h1 : Nat
  h2 : Nat
  h3 : Nat
  window : List Nat
  n : Nat
  p1 : Nat
  p2 : Nat
  hash1 : List Char
  hash2 : List Char
deriving Repr, DecidableEq

/-- Embeds `newSSDeepState` (part_001 lines 122-142): zeroed rolling state, `p1 = p2 =
hashInit`, empty output buffers. -/
def newSSDeepState (blockSize : Nat) : SsdeepState :=
  { blockSize := blockSize
    h1 := 0, h2 := 0, h3 := 0
    window := List.replicate windowSize 0
    n := 0
    p1 := hashInit, p2 := hashInit
    hash1 := [], hash2 := [] }

/-- One iteration of the loop body of `ssdeepState.Write` (part_001 lines
154-202), acting on the state together with the local loop variable `winIdx`.
`bs1` and `bs2` are the loop-invariant `state.blockSize` and `bs1*2` (uint32). -/
def writeByte (bs1 bs2 : Nat) (acc : SsdeepState × Nat) (c : Nat) : SsdeepState × Nat :=
  let st := acc.1
  let winIdx := acc.2
  -- h2 -= h1 ; h2 += windowSize * u_c
  let h2 := add32 (sub32 st.h2 st.h1) (windowSize * c)
  -- h1 += u_c ; h1 -= uint32(state.window[winIdx])
  let h1 := sub32 (add32 st.h1 c) (st.window.getD winIdx 0)
  -- state.window[winIdx] = c ; winIdx++ (wrap at windowSize) ; n_idx++
  let window := st.window.set winIdx c
  let winIdx' := if winIdx + 1 = windowSize then 0 else winIdx + 1
  let n := (st.n + 1) % U32
  -- h3 <<= 5 ; h3 ^= u_c
  let h3 := (mul32 st.h3 32) ^^^ c
  -- p = (p * 16777619) ^ c
  let p1 := (mul32 st.p1 16777619) ^^^ c
  let p2 := (mul32 st.p2 16777619) ^^^ c
  let h := add32 (add32 h1 h2) h3
  if h % bs1 = bs1 - 1 then
    let hash1 := if st.hash1.length < spamSumLength
      then st.hash1 ++ [base64Chars.getD (p1 % 64) 'A'] else st.hash1
    if h % bs2 = bs2 - 1 then
      let hash2 := if st.hash2.length < spamSumLength
        then st.hash2 ++ [base64Chars.getD (p2 % 64) 'A'] else st.hash2
      ({ st with h1 := h1, h2 := h2, h3 := h3, window := window, n := n,
                 p1 := hashInit, p2 := hashInit, hash1 := hash1, hash2 := hash2 }, winIdx')
    else
      ({ st with h1 := h1, h2 := h2, h3 := h3, window := window, n := n,
                 p1 := hashInit, p2 := p2, hash1 := hash1, hash2 := st.hash2 }, winIdx')
  else
    ({ st with h1 := h1, h2 := h2, h3 := h3, window := window, n := n,
               p1 := p1, p2 := p2, hash1 := st.hash1, hash2 := st.hash2 }, winIdx')

/-- Embeds `ssdeepState.Write` (part_001 lines 144-210): fold the loop body over the
input bytes.  The local `winIdx` starts at `state.n % windowSize`. -/
def ssdeepWrite (st : SsdeepState) (p : List Nat) : SsdeepState :=
  (p.foldl (writeByte st.blockSize (mul32 st.blockSize 2)) (st, st.n % windowSize)).1

/-- The first digest segment produced by `ssdeepState.Sum` (part_001 lines
214-218): flush one trailing character if `p1` moved and the buffer is short. -/
def sumR1 (st : SsdeepState) : List Char :=
  if st.p1 ≠ hashInit ∧ st.hash1.length < spamSumLength
  then st.hash1 ++ [base64Chars.getD (st.p1 % 64) 'A'] else st.hash1

/-- The second digest segment produced by `ssdeepState.Sum` (part_001 lines 219-222). -/
def sumR2 (st : SsdeepState) : List Char :=
  if st.p2 ≠ hashInit ∧ st.hash2.length < spamSumLength
  then st.hash2 ++ [base64Chars.getD (st.p2 % 64) 'A'] else st.hash2

/-- Embeds `ssdeepState.Sum` (part_001 lines 212-231): `"blockSize:hash1:hash2"`. -/
def ssdeepSum (st : SsdeepState) : String :=
  toString st.blockSize ++ ":" ++ String.mk (sumR1 st) ++ ":" ++ String.mk (sumR2 st)

/-! ### Block-size estimation (part_001 lines 483-489)

`estimateBlockSize` doubles a `uint32` starting from 3 while
`blockSize * 64 < size`.  The doubling wraps modulo 2^32, so the loop need not
terminate; it is embedded with fuel, `none` meaning the loop did not exit. -/

def estimateBlockSizeLoop : Nat → Nat → Nat → Option Nat
  | 0, _, _ => none
  | fuel + 1, blockSize, size =>
    if blockSize * spamSumLength < size
    then estimateBlockSizeLoop fuel (mul32 blockSize 2) size
    else some blockSize

/-- Embeds `estimateBlockSize` with fuel 64, which is exhaustive (see
`estimateBlockSizeLoop_zero` / `estimateBlockSize_diverges`). -/
def estimateBlockSize (size : Nat) : Option Nat :=
  estimateBlockSizeLoop 64 minBlockSize size

/-! ### Hash entry points (part_001 lines 382-400, 421-477, 493-628) -/

/-- Embeds `sumWithFixedSize` (part_001 lines 382-395): error (`none`) when
`fixedSize <= 0`; otherwise estimate the block size and hash the whole stream.
As called from `Bytes`, the reader is a `bytes.Reader`, which implements
`io.WriterTo`, so `io.Copy` performs one single `state.Write` of the whole
buffer — one `ssdeepWrite`. -/
def sumWithFixedSize (data : List Nat) (fixedSize : Nat) : Option String :=
  if fixedSize = 0 then none
  else match estimateBlockSize fixedSize with
    | none => none
    | some blockSize => some (ssdeepSum (ssdeepWrite (newSSDeepState blockSize) data))

/-- Embeds `Bytes` (part_001 lines 397-400). -/
def Bytes (data : List Nat) : Option String :=
  sumWithFixedSize data data.length

/-- The `streamReader` cache after `ReadAll` (part_001 lines 493-574): the bytes
live in memory if the total size stays within the (floored) cache threshold and
are spooled to a temporary file otherwise; either way the cached contents are
exactly the source bytes and `size` is their count. -/
structure StreamReader where
  cached : List Nat
  file : Option (List Nat)
  size : Nat
deriving Repr, DecidableEq

/-- Embeds `newStreamReader` followed by `ReadAll` (part_001 lines 504-552): the threshold is
floored at `minCachedSize`; the data spill to the temporary file exactly when
the accumulated size exceeds the threshold. -/
def readAll (data : List Nat) (cachedSize : Nat) : StreamReader :=
  let cs := if cachedSize < minCachedSize then minCachedSize else cachedSize
  if cs < data.length then ⟨[], some data, data.length⟩ else ⟨data, none, data.length⟩

/-- The bytes produced by reading the cache back after `Reset` (part_001 lines
577-602): the temporary file's contents if one was created, else the in-memory
cache. -/
def srContents (sr : StreamReader) : List Nat :=
  match sr.file with
  | some f => f
  | none => sr.cached

/-- The transfer-buffer size of `io.Copy` (32 KiB), used when the source does
not implement `io.WriterTo` — which is the case for `streamReader`. -/
def copyChunkSize : Nat := 32 * 1024

/-- One `state.Write` call per 32 KiB chunk, as `io.Copy(state, sr)` performs
for the `streamReader` source.  The loop consumes at least one byte per
iteration, so `data.length + 1` steps always suffice; the fuel argument makes
the recursion structural (and hence kernel-computable), with the `0` case
unreachable at the fuel `copyChunks` supplies. -/
def copyChunksAux : Nat → SsdeepState → List Nat → SsdeepState
  | 0, st, _ => st
  | steps + 1, st, data =>
    if data = [] then st
    else copyChunksAux steps (ssdeepWrite st (data.take copyChunkSize)) (data.drop copyChunkSize)

/-- Embeds `io.Copy(state, sr)` for the non-seekable path: chunked writes. -/
def copyChunks (st : SsdeepState) (data : List Nat) : SsdeepState :=
  copyChunksAux (data.length + 1) st data

/-- The non-seekable branch of `Stream` (part_001 lines 453-477): cache the
whole source, compute the block size from the now-known total size, rewind, and
hash the cached copy through `io.Copy`'s chunked writes. -/
def StreamNonSeekable (data : List Nat) (cachedSize : Nat) : Option String :=
  let sr := readAll data cachedSize
  match estimateBlockSize sr.size with
  | none => none
  | some blockSize =>
    some (ssdeepSum (copyChunks (newSSDeepState blockSize) (srContents sr)))

/-! ### Digest comparison (part_001 lines 240-379) -/

/-- Decimal digit run, as consumed by Go `strconv.Atoi` after the optional
sign: at least one character, all in `'0'..'9'`. -/
def parseDigits : List Char → Option Nat
  | [] => none
  | cs =>
    if cs.all (fun c => c.isDigit)
    then some (cs.foldl (fun acc c => acc * 10 + (c.toNat - '0'.toNat)) 0)
    else none

/-- Go `strconv.Atoi` (64-bit `int`): optional `'+'`/`'-'` sign, a nonempty
digit run, error (`none`) on any other character and on overflow of the
signed 64-bit range. -/
def goAtoi (s : List Char) : Option Int :=
  match s with
  | [] => none
  | '+' :: rest =>
    (parseDigits rest).bind fun v =>
      if (v : Int) ≤ 9223372036854775807 then some (v : Int) else none
  | '-' :: rest =>
    (parseDigits rest).bind fun v =>
      if (v : Int) ≤ 9223372036854775808 then some (-(v : Int)) else none
  | _ =>
    (parseDigits s).bind fun v =>
      if (v : Int) ≤ 9223372036854775807 then some (v : Int) else none

/-- Embeds `shrink` (part_001 lines 369-379): keep the character at index `i` unless
`i ≥ 3` and it equals each of the three preceding characters. -/
def shrink (s : List Char) : List Char :=
  (List.range s.length).foldl (fun buf i =>
    if i < 3 ∨ s.getD i ' ' ≠ s.getD (i - 1) ' ' ∨ s.getD i ' ' ≠ s.getD (i - 2) ' '
        ∨ s.getD i ' ' ≠ s.getD (i - 3) ' '
    then buf ++ [s.getD i ' '] else buf) []

/-- The inner loop of `levenshtein` (part_001 lines 351-361), made functional:
Go sweeps `j = 1..n2` reading the previous row in place and writing the new row
one cell behind (`row[j-1] = prev`).  Here the pairs are `(s2[j-1], row[j])`
for `j = 1..n2`, `rjm1` is the old `row[j-1]` and `prev` the freshly computed
`row`-value for column `j-1`; the returned list is the new row from column
`j-1` on (the written-back `prev`s followed by the final `row[n2] = prev`). -/
def levRow (c1 : Char) : List (Char × Nat) → Nat → Nat → List Nat
  | [], _, prev => [prev]
  | (c2, rj) :: rest, rjm1, prev =>
    let cost := if c1 = c2 then 0 else 1
    let val := min (rj + 1) (min (prev + 1) (rjm1 + cost))
    prev :: levRow c1 rest rj val

/-- The outer loop of `levenshtein` (part_001 lines 351-363): one row update per
character of `s1`, with the Go loop counter `i` (the value `prev` starts at). -/
def levLoop (s2 : List Char) : List Char → Nat → List Nat → List Nat
  | [], _, row => row
  | c1 :: rest, i, row => levLoop s2 rest (i + 1) (levRow c1 (s2.zip row.tail) (row.headD 0) i)

/-- Embeds `levenshtein` (part_001 lines 335-366): two-row dynamic programming over
`row = [0,…,n2]`, returning the final `row[n2]`. -/
def levenshtein (s1 s2 : List Char) : Nat :=
  if s1.length = 0 then s2.length
  else if s2.length = 0 then s1.length
  else (levLoop s2 s1 1 (List.range (s2.length + 1))).getLastD 0

/-- Embeds `score` (part_001 lines 294-333).  The normalisation arithmetic is Go
`uint32` (hence the `mul32`/`% U32`), the final `dist` is a Go `int`. -/
def score (s1 s2 : List Char) : Int :=
  if s1 = s2 then 100
  else
    let b1 := shrink s1
    let b2 := shrink s2
    let n1 := b1.length
    let n2 := b2.length
    if n1 < windowSize ∨ n2 < windowSize then 0
    else
      let dist := levenshtein b1 b2
      let s := mul32 (dist % U32) spamSumLength / ((n1 + n2) % U32)
      let t := mul32 s 100 / spamSumLength
      let d : Int := 100 - (t : Int)
      let d' : Int :=
        if n1 < 11 ∨ n2 < 11 then
          let limit : Int := ((mul32 (min n1 n2 % U32) 100) / 14 : Nat)
          if d > limit then limit else d
        else d
      if d' < 0 then 0 else d'

/-- Go `strings.Split` with the one-character separator `':'`, over the
characters of the string: Go `Split("", ":")` is `[""]`, and every colon starts
a new field. -/
def splitOnColon : List Char → List (List Char)
  | [] => [[]]
  | c :: rest =>
    if c = ':' then [] :: splitOnColon rest
    else
      match splitOnColon rest with
      | [] => [[c]]
      | h :: t => (c :: h) :: t

/-- Go 64-bit two's-complement wraparound: `b1*2` and `b2*2` in `Compare` are
`int` (int64) products, which overflow by wrapping into `[-2^63, 2^63)`. -/
def wrap64 (x : Int) : Int :=
  (x + 9223372036854775808) % 18446744073709551616 - 9223372036854775808

/-- Embeds `Compare` (part_001 lines 240-288): split both digests on `':'`, parse the
block sizes with `Atoi`, demand an equal or exact-double block-size relation
(the doublings `b1*2`, `b2*2` are wrapping int64 products), and combine
segment scores; `none` is the error return. -/
def Compare (hash1 hash2 : String) : Option Int :=
  let p1 := splitOnColon hash1.data
  let p2 := splitOnColon hash2.data
  if p1.length ≠ 3 ∨ p2.length ≠ 3 then none
  else
    match goAtoi (p1.getD 0 []), goAtoi (p2.getD 0 []) with
    | some b1, some b2 =>
      let s1_1 := p1.getD 1 []
      let s1_2 := p1.getD 2 []
      let s2_1 := p2.getD 1 []
      let s2_2 := p2.getD 2 []
      if b1 ≠ b2 ∧ b1 ≠ wrap64 (b2 * 2) ∧ b2 ≠ wrap64 (b1 * 2) then some 0
      else if b1 = b2 then
        let score1 := score s1_1 s2_1
        let score2 := score s1_2 s2_2
        if spamSumLength ≤ s1_1.length ∧ spamSumLength ≤ s2_1.length ∧ 0 < score2
        then some score2
        else some (max score1 score2)
      else if b1 = wrap64 (b2 * 2) then some (score s1_1 s2_2)
      else some (score s1_2 s2_1)
    | _, _ => none

/-! ### Spec-side definitions

These follow the words of the specification (§4.5, §4.6), to be compared with
the code-side `score`: a textbook recursive Levenshtein distance and the
spec's description of shrinking and of the normalisation formula. -/

/-- Standard Levenshtein edit distance (spec §4.6): unit-cost insert, delete,
substitute; distance to the empty string is the other string's length. -/
def editDist : List Char → List Char → Nat
  | [], ys => ys.length
  | xs, [] => xs.length
  | x :: xs, y :: ys =>
    min (editDist xs ys + if x = y then 0 else 1)
      (min (editDist (x :: xs) ys + 1) (editDist xs (y :: ys) + 1))
termination_by xs ys => xs.length + ys.length

/-- Shrink as the spec words it (§4.5): drop the character at position `i` iff
`i ≥ 3` and it equals each of the three preceding characters. -/
def specShrink (s : List Char) : List Char :=
  (List.range s.length).foldl (fun buf i =>
    if 3 ≤ i ∧ s.getD i ' ' = s.getD (i - 1) ' ' ∧ s.getD i ' ' = s.getD (i - 2) ' '
        ∧ s.getD i ' ' = s.getD (i - 3) ' '
    then buf else buf ++ [s.getD i ' ']) []

/-- The segment score exactly as claim C2 / spec §4.5 words it for two
non-identical segments: shrink, length-7 floor, `s = d*64/(n1+n2)` then
`s = s*100/64` (truncating division in that order), `100 - s`, the
`min(n1,n2)*100/14` cap when a shrunk length is below 11, negative clamped
to 0. -/
def specScore (s1 s2 : List Char) : Int :=
  let b1 := specShrink s1
  let b2 := specShrink s2
  let n1 := b1.length
  let n2 := b2.length
  if n1 < 7 ∨ n2 < 7 then 0
  else
    let d := editDist b1 b2
    let s := d * 64 / (n1 + n2)
    let t := s * 100 / 64
    let raw : Int := 100 - (t : Int)
    let capped : Int :=
      if n1 < 11 ∨ n2 < 11 then min raw ((min n1 n2 * 100 / 14 : Nat) : Int) else raw
    if capped < 0 then 0 else capped

/-- Auxiliary for relating the two-row loop to `editDist`: the tail of the
dynamic-programming row belonging to the already-consumed prefix `A` of `s1`,
with `P` the prefix of `s2` already swept and `Q` the remaining columns; the
entry for a column extending `P` by `q₁ … q_k` is `editDist A (P ++ [q₁,…,q_k])`. -/
def rowOf (A : List Char) : List Char → List Char → List Nat
  | _, [] => []
  | P, q :: Q => editDist A (P ++ [q]) :: rowOf A (P ++ [q]) Q

/-- Well-formedness of a digest string as `Compare` accepts it: exactly two
colon separators and a block-size field that `strconv.Atoi` parses. -/
def validDigestFormat (h : String) : Prop :=
  (splitOnColon h.data).length = 3 ∧ (goAtoi ((splitOnColon h.data).getD 0 [])).isSome

/-! ## Theorems

First the pure edit-distance development: the defining equations of
`editDist`, the snoc-snoc recurrence (which is what the prefix-indexed
dynamic programming of the Go code steps by), symmetry, and the equivalence
of the embedded two-row `levenshtein` with `editDist`. -/

theorem editDist_nil_left (ys : List Char) : editDist [] ys = ys.length := by
  simp [editDist]

theorem editDist_nil_right (xs : List Char) : editDist xs [] = xs.length := by
  cases xs <;> simp [editDist]

theorem editDist_cons_cons (x y : Char) (xs ys : List Char) :
    editDist (x :: xs) (y :: ys) =
      min (editDist xs ys + if x = y then 0 else 1)
        (min (editDist (x :: xs) ys + 1) (editDist xs (y :: ys) + 1)) := by
  simp [editDist]

set_option maxHeartbeats 1600000 in
theorem editDist_snoc_aux (x y : Char) :
    ∀ (n : Nat) (as bs : List Char), as.length + bs.length ≤ n →
    editDist (as ++ [x]) (bs ++ [y]) =
      min (editDist as bs + if x = y then 0 else 1)
        (min (editDist (as ++ [x]) bs + 1) (editDist as (bs ++ [y]) + 1)) := by
  intro n
  induction n with
  | zero =>
    intro as bs h
    obtain ⟨rfl, rfl⟩ : as = [] ∧ bs = [] := by
      cases as <;> cases bs <;> simp_all
    simp [editDist]
  | succ n ih =>
    intro as bs h
    match as, bs with
    | [], [] => simp [editDist]
    | [], b :: B =>
      have hB : ([] : List Char).length + B.length ≤ n := by simp at h ⊢; omega
      have hIH := ih [] B hB
      simp only [List.nil_append] at hIH
      simp only [List.nil_append, List.cons_append, editDist_cons_cons, hIH,
        editDist_nil_left, editDist_nil_right, List.length_append,
        List.length_cons, List.length_singleton, List.length_nil]
      generalize editDist [x] B = A
      generalize (if x = y then 0 else 1) = cy
      generalize (if x = b then 0 else 1) = cb
      omega
    | a :: A, [] =>
      have hA : A.length + ([] : List Char).length ≤ n := by simp at h ⊢; omega
      have hIH := ih A [] hA
      simp only [List.nil_append] at hIH
      simp only [List.nil_append, List.cons_append, editDist_cons_cons, hIH,
        editDist_nil_left, editDist_nil_right, List.length_append,
        List.length_cons, List.length_singleton, List.length_nil]
      generalize editDist A [y] = Ay
      generalize (if x = y then 0 else 1) = cy
      generalize (if a = y then 0 else 1) = ca
      omega
    | a :: A, b :: B =>
      have h1 : A.length + B.length ≤ n := by simp at h ⊢; omega
      have h2 : (a :: A).length + B.length ≤ n := by simp at h ⊢; omega
      have h3 : A.length + (b :: B).length ≤ n := by simp at h ⊢; omega
      have hIH1 := ih A B h1
      have hIH2 := ih (a :: A) B h2
      have hIH3 := ih A (b :: B) h3
      simp only [List.cons_append] at hIH2 hIH3
      rw [List.cons_append, List.cons_append]
      rw [show editDist (a :: (A ++ [x])) (b :: (B ++ [y])) =
            min (editDist (A ++ [x]) (B ++ [y]) + if a = b then 0 else 1)
              (min (editDist (a :: (A ++ [x])) (B ++ [y]) + 1)
                (editDist (A ++ [x]) (b :: (B ++ [y])) + 1)) from
          editDist_cons_cons a b (A ++ [x]) (B ++ [y])]
      rw [hIH1, hIH2, hIH3, editDist_cons_cons a b A B,
        editDist_cons_cons a b (A ++ [x]) B,
        editDist_cons_cons a b A (B ++ [y])]
      generalize editDist A B = e1
      generalize editDist (a :: A) B = e2
      generalize editDist A (b :: B) = e3
      generalize editDist (A ++ [x]) B = e4
      generalize editDist (a :: (A ++ [x])) B = e5
      generalize editDist (A ++ [x]) (b :: B) = e6
      generalize editDist A (B ++ [y]) = e7
      generalize editDist (a :: A) (B ++ [y]) = e8
      generalize editDist A (b :: (B ++ [y])) = e9
      generalize (if x = y then 0 else 1) = cy
      generalize (if a = b then 0 else 1) = cb
      simp only [← Nat.add_min_add_right]
      ac_nf

theorem editDist_snoc_snoc (x y : Char) (as bs : List Char) :
    editDist (as ++ [x]) (bs ++ [y]) =
      min (editDist as bs + if x = y then 0 else 1)
        (min (editDist (as ++ [x]) bs + 1) (editDist as (bs ++ [y]) + 1)) :=
  editDist_snoc_aux x y (as.length + bs.length) as bs le_rfl

theorem editDist_symm_aux :
    ∀ (n : Nat) (as bs : List Char), as.length + bs.length ≤ n →
    editDist as bs = editDist bs as := by
  intro n
  induction n with
  | zero =>
    intro as bs h
    obtain ⟨rfl, rfl⟩ : as = [] ∧ bs = [] := by
      cases as <;> cases bs <;> simp_all
    rfl
  | succ n ih =>
    intro as bs h
    match as, bs with
    | [], bs => rw [editDist_nil_left, editDist_nil_right]
    | a :: A, [] => rw [editDist_nil_left, editDist_nil_right]
    | a :: A, b :: B =>
      have h1 : A.length + B.length ≤ n := by simp at h ⊢; omega
      have h2 : (a :: A).length + B.length ≤ n := by simp at h ⊢; omega
      have h3 : A.length + (b :: B).length ≤ n := by simp at h ⊢; omega
      rw [editDist_cons_cons, editDist_cons_cons b a B A,
        ih A B h1, ih (a :: A) B h2, ih A (b :: B) h3]
      have hc : (if a = b then (0 : Nat) else 1) = if b = a then 0 else 1 := by
        by_cases hab : a = b <;> simp [hab, Ne.symm, eq_comm]
      rw [hc]
      generalize editDist B A = e1
      generalize editDist B (a :: A) = e2
      generalize editDist (b :: B) A = e3
      generalize (if b = a then 0 else 1) = c
      omega

theorem editDist_symm (as bs : List Char) : editDist as bs = editDist bs as :=
  editDist_symm_aux (as.length + bs.length) as bs le_rfl

theorem editDist_le_max :
    ∀ (n : Nat) (as bs : List Char), as.length + bs.length ≤ n →
    editDist as bs ≤ max as.length bs.length := by
  intro n
  induction n with
  | zero =>
    intro as bs h
    obtain ⟨rfl, rfl⟩ : as = [] ∧ bs = [] := by
      cases as <;> cases bs <;> simp_all
    simp [editDist]
  | succ n ih =>
    intro as bs h
    match as, bs with
    | [], bs => rw [editDist_nil_left]; simp
    | a :: A, [] => rw [editDist_nil_right]; simp
    | a :: A, b :: B =>
      have h1 : A.length + B.length ≤ n := by simp at h ⊢; omega
      have hAB := ih A B h1
      rw [editDist_cons_cons]
      have hle : min (editDist A B + if a = b then 0 else 1)
          (min (editDist (a :: A) B + 1) (editDist A (b :: B) + 1)) ≤
          editDist A B + 1 := by
        have : (if a = b then (0 : Nat) else 1) ≤ 1 := by split <;> omega
        omega
      simp only [List.length_cons]
      omega

theorem levRow_spec (x : Char) (A : List Char) :
    ∀ (Q P : List Char),
    levRow x (Q.zip (rowOf A P Q)) (editDist A P) (editDist (A ++ [x]) P) =
      editDist (A ++ [x]) P :: rowOf (A ++ [x]) P Q := by
  intro Q
  induction Q with
  | nil => intro P; simp [rowOf, levRow]
  | cons q Q ih =>
    intro P
    simp only [rowOf, List.zip_cons_cons, levRow]
    have hval : min (editDist A (P ++ [q]) + 1)
        (min (editDist (A ++ [x]) P + 1) (editDist A P + if x = q then 0 else 1)) =
        editDist (A ++ [x]) (P ++ [q]) := by
      rw [editDist_snoc_snoc]
      generalize editDist A (P ++ [q]) = r1
      generalize editDist (A ++ [x]) P = r2
      generalize editDist A P = r3
      generalize (if x = q then 0 else 1) = c
      omega
    have ih' := ih (P ++ [q])
    simp only [List.zip] at ih' ⊢
    rw [hval, ih']

theorem levLoop_spec (s2 : List Char) :
    ∀ (rest A : List Char),
    levLoop s2 rest (A.length + 1) (editDist A [] :: rowOf A [] s2) =
      editDist (A ++ rest) [] :: rowOf (A ++ rest) [] s2 := by
  intro rest
  induction rest with
  | nil => intro A; simp [levLoop]
  | cons x rest ih =>
    intro A
    simp only [levLoop, List.tail_cons, List.headD_cons]
    have hi : A.length + 1 = editDist (A ++ [x]) [] := by
      rw [editDist_nil_right, List.length_append, List.length_singleton]
    rw [hi, levRow_spec x A s2 []]
    have hlen : (A ++ [x]).length + 1 = A.length + 1 + 1 := by
      rw [List.length_append, List.length_singleton]
    have h2 := ih (A ++ [x])
    rw [hlen, hi] at h2
    rw [h2, List.append_assoc, List.singleton_append]

theorem rowOf_nil_left : ∀ (Q P : List Char), rowOf [] P Q = List.range' (P.length + 1) Q.length := by
  intro Q
  induction Q with
  | nil => intro P; simp [rowOf, List.range']
  | cons q Q ih =>
    intro P
    rw [show (q :: Q).length = Q.length + 1 from rfl, List.range'_succ]
    simp only [rowOf, editDist_nil_left, List.length_append, List.length_singleton]
    rw [ih (P ++ [q]), List.length_append, List.length_singleton]

theorem rowOf_getLastD : ∀ (Q A P : List Char) (d : Nat), Q ≠ [] →
    (rowOf A P Q).getLastD d = editDist A (P ++ Q) := by
  intro Q
  induction Q with
  | nil => intro A P d h; exact absurd rfl h
  | cons q Q ih =>
    intro A P d _
    match Q, ih with
    | [], _ => simp [rowOf]
    | q' :: Q', ih =>
      rw [show rowOf A P (q :: q' :: Q') =
          editDist A (P ++ [q]) :: rowOf A (P ++ [q]) (q' :: Q') from rfl,
        List.getLastD_cons, ih A (P ++ [q]) _ (by simp)]
      rw [List.append_assoc, List.singleton_append]

theorem levenshtein_eq_editDist (s1 s2 : List Char) :
    levenshtein s1 s2 = editDist s1 s2 := by
  unfold levenshtein
  by_cases h1 : s1.length = 0
  · obtain rfl := List.length_eq_zero.mp h1
    simp [editDist_nil_left]
  by_cases h2 : s2.length = 0
  · obtain rfl := List.length_eq_zero.mp h2
    simp [h1, editDist_nil_right]
  rw [if_neg h1, if_neg h2]
  have hrow : List.range (s2.length + 1) = editDist [] [] :: rowOf [] [] s2 := by
    rw [List.range_eq_range', List.range'_succ, editDist_nil_left,
      rowOf_nil_left s2 [], List.length_nil]
  have hL := levLoop_spec s2 s1 []
  rw [List.length_nil, List.nil_append] at hL
  rw [hrow, hL, List.getLastD_cons,
    rowOf_getLastD s2 s1 [] _ (fun hs => h2 (by simp [hs])), List.nil_append]

theorem foldl_congr_fun {α β : Type} (f g : β → α → β) (h : ∀ b a, f b a = g b a) :
    ∀ (l : List α) (b : β), l.foldl f b = l.foldl g b := by
  intro l
  induction l with
  | nil => intro b; rfl
  | cons a l ih => intro b; rw [List.foldl_cons, List.foldl_cons, h, ih]

theorem shrink_eq_specShrink (s : List Char) : shrink s = specShrink s := by
  unfold shrink specShrink
  apply foldl_congr_fun
  intro buf i
  by_cases hA : i < 3 ∨ s.getD i ' ' ≠ s.getD (i - 1) ' ' ∨ s.getD i ' ' ≠ s.getD (i - 2) ' '
      ∨ s.getD i ' ' ≠ s.getD (i - 3) ' '
  · rw [if_pos hA, if_neg]
    intro hB
    rcases hA with h | h | h | h
    · omega
    · exact h hB.2.1
    · exact h hB.2.2.1
    · exact h hB.2.2.2
  · push_neg at hA
    rw [if_neg, if_pos ⟨by omega, hA.2.1, hA.2.2.1, hA.2.2.2⟩]
    push_neg
    exact ⟨by omega, hA.2.1, hA.2.2.1, hA.2.2.2⟩

theorem foldl_length_le {α : Type} (f : List Char → α → List Char)
    (hf : ∀ b a, (f b a).length ≤ b.length + 1) :
    ∀ (l : List α) (b : List Char), (l.foldl f b).length ≤ b.length + l.length := by
  intro l
  induction l with
  | nil => intro b; simp
  | cons a l ih =>
    intro b
    calc (List.foldl f (f b a) l).length ≤ (f b a).length + l.length := ih (f b a)
    _ ≤ b.length + 1 + l.length := by have := hf b a; omega
    _ = b.length + (a :: l).length := by simp [List.length_cons]; omega

theorem shrink_length_le (s : List Char) : (shrink s).length ≤ s.length := by
  unfold shrink
  have h := foldl_length_le
    (fun buf i =>
      if i < 3 ∨ s.getD i ' ' ≠ s.getD (i - 1) ' ' ∨ s.getD i ' ' ≠ s.getD (i - 2) ' '
          ∨ s.getD i ' ' ≠ s.getD (i - 3) ' '
      then buf ++ [s.getD i ' '] else buf)
    (by
      intro b a
      dsimp only
      split
      · simp
      · simp)
    (List.range s.length) []
  simpa using h

theorem score_self (s : List Char) : score s s = 100 := by
  simp [score]

theorem score_symm (s1 s2 : List Char) : score s1 s2 = score s2 s1 := by
  by_cases h12 : s1 = s2
  · subst h12; rfl
  have hlev : levenshtein (shrink s1) (shrink s2) = levenshtein (shrink s2) (shrink s1) := by
    rw [levenshtein_eq_editDist, levenshtein_eq_editDist, editDist_symm]
  simp only [score]
  rw [if_neg h12, if_neg (show ¬(s2 = s1) from fun h => h12 h.symm)]
  by_cases hc : (shrink s1).length < windowSize ∨ (shrink s2).length < windowSize
  · rw [if_pos hc, if_pos (Or.symm hc)]
  · rw [if_neg hc, if_neg (fun h => hc (Or.symm h))]
    rw [hlev, Nat.add_comm ((shrink s2).length) ((shrink s1).length),
      Nat.min_comm ((shrink s2).length) ((shrink s1).length)]
    by_cases hd : (shrink s1).length < 11 ∨ (shrink s2).length < 11
    · simp only [if_pos hd, if_pos (Or.symm hd)]
    · simp only [if_neg hd, if_neg (fun h => hd (Or.symm h))]

/-- C2: for any two non-identical digest segments (at most 64 characters, the
digest-segment cap), the code's `score` computes exactly the spec's formula:
shrink both; 0 if either shrunk length is below 7; otherwise with `d` the
Levenshtein distance, `s = d*64/(n1+n2)` then `s = s*100/64` with truncating
integer division in that order, `100 - s`, capped at `min(n1,n2)*100/14` when
either shrunk length is below 11, negatives clamped to 0. -/
theorem score_eq_specScore (s1 s2 : List Char) (h12 : s1 ≠ s2)
    (hl1 : s1.length ≤ 64) (hl2 : s2.length ≤ 64) :
    score s1 s2 = specScore s1 s2 := by
  have hb1 : (shrink s1).length ≤ 64 := le_trans (shrink_length_le s1) hl1
  have hb2 : (shrink s2).length ≤ 64 := le_trans (shrink_length_le s2) hl2
  simp only [score, specScore, ← shrink_eq_specShrink, windowSize, spamSumLength]
  rw [if_neg h12]
  by_cases hc : (shrink s1).length < 7 ∨ (shrink s2).length < 7
  · rw [if_pos hc, if_pos hc]
  · rw [if_neg hc, if_neg hc]
    push_neg at hc
    rw [levenshtein_eq_editDist]
    have hd : editDist (shrink s1) (shrink s2) ≤ 64 := by
      have := editDist_le_max ((shrink s1).length + (shrink s2).length)
        (shrink s1) (shrink s2) le_rfl
      omega
    simp only [mul32]
    rw [show editDist (shrink s1) (shrink s2) % U32 = editDist (shrink s1) (shrink s2) from
        Nat.mod_eq_of_lt (by unfold U32; omega)]
    rw [show editDist (shrink s1) (shrink s2) * 64 % U32 = editDist (shrink s1) (shrink s2) * 64 from
        Nat.mod_eq_of_lt (by unfold U32; omega)]
    rw [show ((shrink s1).length + (shrink s2).length) % U32 =
        (shrink s1).length + (shrink s2).length from
        Nat.mod_eq_of_lt (by unfold U32; omega)]
    have hs_le : editDist (shrink s1) (shrink s2) * 64 /
        ((shrink s1).length + (shrink s2).length) ≤ 4096 :=
      le_trans (Nat.div_le_self _ _) (by omega)
    rw [show editDist (shrink s1) (shrink s2) * 64 /
          ((shrink s1).length + (shrink s2).length) * 100 % U32 =
        editDist (shrink s1) (shrink s2) * 64 /
          ((shrink s1).length + (shrink s2).length) * 100 from
        Nat.mod_eq_of_lt (by unfold U32; omega)]
    rw [show ((shrink s1).length ⊓ (shrink s2).length) % U32 =
        (shrink s1).length ⊓ (shrink s2).length from
        Nat.mod_eq_of_lt (by unfold U32; omega)]
    rw [show ((shrink s1).length ⊓ (shrink s2).length) * 100 % U32 =
        ((shrink s1).length ⊓ (shrink s2).length) * 100 from
        Nat.mod_eq_of_lt (by unfold U32; omega)]
    have hminify : ∀ a b : Int, (if a > b then b else a) = min a b := by
      intro a b; split <;> omega
    rw [hminify]

/-- C6: for every well-formed digest string (exactly two colon separators and a
block-size field `Atoi` accepts), comparing the digest with itself yields score
100 and no error, whatever the segments are — including empty, short, or
64-character (saturated) segments. -/
theorem compare_self_eq_100 (h : String) (a x y : List Char) (b : Int)
    (hsplit : splitOnColon h.data = [a, x, y]) (hb : goAtoi a = some b) :
    Compare h h = some 100 := by
  simp only [Compare, hsplit, List.length_cons, List.length_nil, List.getD_cons_zero,
    List.getD_cons_succ]
  rw [if_neg (by omega), hb]
  simp [score_self]

/-- Witness for C6 at the concrete digest produced for the fox-string input. -/
theorem compare_self_eq_100_witness : Compare "3:FJKKIUKact:FHIGi" "3:FJKKIUKact:FHIGi" = some 100 :=
  compare_self_eq_100 "3:FJKKIUKact:FHIGi" "3".data "FJKKIUKact".data "FHIGi".data 3
    (by decide) (by decide)

/-- Witness for C2 at two concrete 10-character segments. -/
theorem score_eq_specScore_witness :
    score "FJKKIUKact".data "FJKKIrKact".data = specScore "FJKKIUKact".data "FJKKIrKact".data :=
  score_eq_specScore "FJKKIUKact".data "FJKKIrKact".data (by decide) (by decide) (by decide)

/-- C5: when two well-formed digests carry the same block size, `Compare`
returns the maximum of the two matching-resolution segment scores — except that
when both first segments are at the 64-character saturation cap and the
second-segment score is positive, the second-segment score is returned. -/
theorem compare_equal_blockSize (h1 h2 : String) (a1 x1 y1 a2 x2 y2 : List Char) (b : Int)
    (hs1 : splitOnColon h1.data = [a1, x1, y1]) (hs2 : splitOnColon h2.data = [a2, x2, y2])
    (hb1 : goAtoi a1 = some b) (hb2 : goAtoi a2 = some b) :
    Compare h1 h2 =
      some (if 64 ≤ x1.length ∧ 64 ≤ x2.length ∧ 0 < score y1 y2
            then score y1 y2
            else max (score x1 x2) (score y1 y2)) := by
  simp only [Compare, hs1, hs2, List.length_cons, List.length_nil, List.getD_cons_zero,
    List.getD_cons_succ]
  rw [if_neg (by omega), hb1, hb2]
  dsimp only
  rw [if_neg (by simp), if_pos rfl]
  simp only [spamSumLength]
  split_ifs <;> rfl

/-- Witness for C5 at two concrete equal-block-size digests. -/
theorem compare_equal_blockSize_witness :
    Compare "3:FJKKIUKact:FHIGi" "3:FJKKIrKact:FHIrGi" =
      some (if 64 ≤ "FJKKIUKact".data.length ∧ 64 ≤ "FJKKIrKact".data.length ∧
              0 < score "FHIGi".data "FHIrGi".data
            then score "FHIGi".data "FHIrGi".data
            else max (score "FJKKIUKact".data "FJKKIrKact".data)
              (score "FHIGi".data "FHIrGi".data)) :=
  compare_equal_blockSize "3:FJKKIUKact:FHIGi" "3:FJKKIrKact:FHIrGi"
    "3".data "FJKKIUKact".data "FHIGi".data "3".data "FJKKIrKact".data "FHIrGi".data 3
    (by decide) (by decide) (by decide) (by decide)

/-- Every value `strconv.Atoi` accepts is a 64-bit `int` value. -/
theorem goAtoi_range (s : List Char) (v : Int) (h : goAtoi s = some v) :
    -9223372036854775808 ≤ v ∧ v ≤ 9223372036854775807 := by
  unfold goAtoi at h
  split at h
  · exact absurd h (by simp)
  all_goals
    obtain ⟨n, _, hv⟩ := Option.bind_eq_some.mp h
  · split at hv
    · obtain rfl : (n : Int) = v := congrArg (Option.getD · 0) hv
      omega
    · exact absurd hv (by simp)
  · split at hv
    · obtain rfl : (-(n : Int)) = v := congrArg (Option.getD · 0) hv
      omega
    · exact absurd hv (by simp)
  · split at hv
    · obtain rfl : (n : Int) = v := congrArg (Option.getD · 0) hv
      omega
    · exact absurd hv (by simp)

/-- C4 (amended): `Compare` reports an error exactly when an input is not of
the accepted format — not exactly two colon separators, or a block-size field
that Go `strconv.Atoi` rejects (`Atoi` does accept signed values, so a negative
block size is not an error); and for two accepted digests whose block sizes are
neither equal nor in an exact double relation — the doubling computed, as the
code computes it, in wrapping int64 arithmetic — it returns score 0 with no
error. -/
theorem compare_format_error_iff (h1 h2 : String) :
    (Compare h1 h2 = none ↔ ¬(validDigestFormat h1 ∧ validDigestFormat h2)) ∧
    (∀ b1 b2 : Int,
      goAtoi ((splitOnColon h1.data).getD 0 []) = some b1 →
      goAtoi ((splitOnColon h2.data).getD 0 []) = some b2 →
      (splitOnColon h1.data).length = 3 → (splitOnColon h2.data).length = 3 →
      b1 ≠ b2 → b1 ≠ wrap64 (b2 * 2) → b2 ≠ wrap64 (b1 * 2) →
      Compare h1 h2 = some 0) := by
  constructor
  · by_cases hv : validDigestFormat h1 ∧ validDigestFormat h2
    · obtain ⟨⟨hl1, hs1⟩, hl2, hs2⟩ := hv
      obtain ⟨b1, hb1⟩ := Option.isSome_iff_exists.mp hs1
      obtain ⟨b2, hb2⟩ := Option.isSome_iff_exists.mp hs2
      simp only [Compare]
      rw [if_neg (by omega), hb1, hb2]
      dsimp only
      constructor
      · intro hnone
        exfalso
        split_ifs at hnone
      · intro hcon
        exact absurd ⟨⟨hl1, hs1⟩, hl2, hs2⟩ hcon
    · refine ⟨fun _ => hv, fun _ => ?_⟩
      simp only [Compare]
      by_cases hl1 : (splitOnColon h1.data).length = 3
      · by_cases hl2 : (splitOnColon h2.data).length = 3
        · rw [if_neg (by omega)]
          rcases o1 : goAtoi ((splitOnColon h1.data).getD 0 []) with _ | b1
          · rfl
          · rcases o2 : goAtoi ((splitOnColon h2.data).getD 0 []) with _ | b2
            · rfl
            · exact absurd ⟨⟨hl1, by rw [o1]; rfl⟩, hl2, by rw [o2]; rfl⟩ hv
        · rw [if_pos (Or.inr hl2)]
      · rw [if_pos (Or.inl hl1)]
  · intro b1 b2 hb1 hb2 hl1 hl2 hne1 hne2 hne3
    simp only [Compare]
    rw [if_neg (by omega), hb1, hb2]
    dsimp only
    rw [if_pos ⟨hne1, hne2, hne3⟩]

/-- Witness for C4: two accepted digests with unrelated block sizes (6 and 24)
give score 0 without an error. -/
theorem compare_format_error_iff_witness : Compare "6:ABCDEFG:HIJKLMN" "24:ABCDEFG:HIJKLMN" = some 0 :=
  (compare_format_error_iff "6:ABCDEFG:HIJKLMN" "24:ABCDEFG:HIJKLMN").2 6 24
    (by decide) (by decide) (by decide) (by decide) (by decide) (by decide) (by decide)

/-- Counterexample for C4 as stated: the block-size field `"-3"` is not a valid
non-negative decimal integer, yet `Compare` reports no format error — `Atoi`
parses the sign and the unrelated-block-size path returns score 0. -/
theorem compare_negative_blockSize_no_error :
    Compare "-3:AAAAAAAA:BBBBBBBB" "3:CCCCCCCC:DDDDDDDD" = some 0 := by decide

/-- The block-size relation really is wrapping int64 arithmetic: with
`b1 = -2^63` and `b2 = 2^62` the product `b2*2` overflows to `-2^63 = b1`, so
`Compare` takes the double-block branch and scores the matching segment pair
(here equal, hence 100) — although the two sizes are unrelated as unbounded
integers. -/
theorem compare_wrapped_double_blockSize :
    Compare "-9223372036854775808:ABCDEFGH:ABCDEFGH"
      "4611686018427387904:ABCDEFGH:ABCDEFGH" = some 100 := by decide

/-- The wrapping int64 double cannot match in both directions at once unless
the two block sizes are equal: `b1 = wrap64 (2*b2)` and `b2 = wrap64 (2*b1)`
over the int64 range force `3*b1` to be a multiple of `2^64`, hence `b1 = 0`
and then `b2 = 0`. -/
theorem wrap64_double_antisymm (b1 b2 : Int)
    (hr1 : -9223372036854775808 ≤ b1 ∧ b1 ≤ 9223372036854775807)
    (hr2 : -9223372036854775808 ≤ b2 ∧ b2 ≤ 9223372036854775807)
    (heq : ¬(b1 = b2))
    (h2x : b1 = wrap64 (b2 * 2))
    (hcon : b2 = wrap64 (b1 * 2)) : False := by
  unfold wrap64 at h2x hcon
  have m1 : (b2 * 2 + 9223372036854775808) % 18446744073709551616 =
      b1 + 9223372036854775808 := by linarith
  have m2 : (b1 * 2 + 9223372036854775808) % 18446744073709551616 =
      b2 + 9223372036854775808 := by linarith
  have d1 := Int.emod_add_ediv (b2 * 2 + 9223372036854775808) 18446744073709551616
  have d2 := Int.emod_add_ediv (b1 * 2 + 9223372036854775808) 18446744073709551616
  rw [m1] at d1
  rw [m2] at d2
  generalize (b2 * 2 + 9223372036854775808) / 18446744073709551616 = q1 at d1
  generalize (b1 * 2 + 9223372036854775808) / 18446744073709551616 = q2 at d2
  clear m1 m2 h2x hcon
  have key : 3 * b1 = 18446744073709551616 * (q1 + 2 * q2) := by linarith
  have hdvd : (18446744073709551616 : Int) ∣ 3 * b1 := ⟨q1 + 2 * q2, key⟩
  have hcop : IsCoprime (18446744073709551616 : Int) 3 :=
    Int.isCoprime_iff_gcd_eq_one.mpr (by decide)
  have hb1dvd : (18446744073709551616 : Int) ∣ b1 :=
    IsCoprime.dvd_of_dvd_mul_left hcop hdvd
  obtain ⟨c, hc⟩ := hb1dvd
  have hb1 : b1 = 0 := by
    rcases hr1 with ⟨hl, hu⟩
    rw [hc] at hl hu ⊢
    have hc0 : c = 0 := by nlinarith
    rw [hc0]; ring
  have hq2 : b2 = -(18446744073709551616 * q2) := by linarith
  have hb2 : b2 = 0 := by
    rcases hr2 with ⟨hl, hu⟩
    rw [hq2] at hl hu ⊢
    have hq20 : q2 = 0 := by nlinarith
    rw [hq20]; ring
  exact heq (by rw [hb1, hb2])

/-- C10: `Compare` is commutative — for every pair of digest strings (well
formed or not) the swapped call returns the same score and the same error
status: the format checks, the block-size relation (including its wrapping
int64 doubles: both doubles matching at once would force both parsed sizes to
0, hence equal), the saturation test and the segment score are all symmetric
in the two arguments. -/
theorem compare_comm (a b : String) : Compare a b = Compare b a := by
  simp only [Compare]
  by_cases hla : (splitOnColon a.data).length = 3
  · by_cases hlb : (splitOnColon b.data).length = 3
    · have hA : ¬((splitOnColon a.data).length ≠ 3 ∨ (splitOnColon b.data).length ≠ 3) := by
        omega
      have hB : ¬((splitOnColon b.data).length ≠ 3 ∨ (splitOnColon a.data).length ≠ 3) := by
        omega
      rw [if_neg hA, if_neg hB]
      rcases o1 : goAtoi ((splitOnColon a.data).getD 0 []) with _ | b1
      · rcases o2 : goAtoi ((splitOnColon b.data).getD 0 []) with _ | b2 <;> rfl
      · rcases o2 : goAtoi ((splitOnColon b.data).getD 0 []) with _ | b2
        · rfl
        · have hr1 := goAtoi_range _ _ o1
          have hr2 := goAtoi_range _ _ o2
          dsimp only
          by_cases heq : b1 = b2
          · subst heq
            have hg : ¬(b1 ≠ b1 ∧ b1 ≠ wrap64 (b1 * 2) ∧ b1 ≠ wrap64 (b1 * 2)) :=
              fun hc => hc.1 rfl
            rw [if_neg hg, if_neg hg, if_pos rfl, if_pos rfl]
            rw [score_symm ((splitOnColon a.data).getD 1 []) ((splitOnColon b.data).getD 1 []),
              score_symm ((splitOnColon a.data).getD 2 []) ((splitOnColon b.data).getD 2 [])]
            by_cases hsat : spamSumLength ≤ ((splitOnColon a.data).getD 1 []).length ∧
                spamSumLength ≤ ((splitOnColon b.data).getD 1 []).length ∧
                0 < score ((splitOnColon b.data).getD 2 []) ((splitOnColon a.data).getD 2 [])
            · rw [if_pos hsat, if_pos ⟨hsat.2.1, hsat.1, hsat.2.2⟩]
            · rw [if_neg hsat,
                if_neg (show ¬(spamSumLength ≤ ((splitOnColon b.data).getD 1 []).length ∧
                    spamSumLength ≤ ((splitOnColon a.data).getD 1 []).length ∧
                    0 < score ((splitOnColon b.data).getD 2 []) ((splitOnColon a.data).getD 2 []))
                  from fun hc => hsat ⟨hc.2.1, hc.1, hc.2.2⟩)]
          · by_cases h2x : b1 = wrap64 (b2 * 2)
            · have h2y : ¬(b2 = wrap64 (b1 * 2)) := fun hcon =>
                wrap64_double_antisymm b1 b2 hr1 hr2 heq h2x hcon
              have hgL : ¬(b1 ≠ b2 ∧ b1 ≠ wrap64 (b2 * 2) ∧ b2 ≠ wrap64 (b1 * 2)) :=
                fun hc => hc.2.1 h2x
              have hgR : ¬(b2 ≠ b1 ∧ b2 ≠ wrap64 (b1 * 2) ∧ b1 ≠ wrap64 (b2 * 2)) :=
                fun hc => hc.2.2 h2x
              rw [if_neg hgL, if_neg heq, if_pos h2x, if_neg hgR,
                if_neg (show ¬(b2 = b1) from fun h => heq h.symm), if_neg h2y]
              exact congrArg some (score_symm _ _)
            · by_cases h2y : b2 = wrap64 (b1 * 2)
              · have hgL : ¬(b1 ≠ b2 ∧ b1 ≠ wrap64 (b2 * 2) ∧ b2 ≠ wrap64 (b1 * 2)) :=
                  fun hc => hc.2.2 h2y
                have hgR : ¬(b2 ≠ b1 ∧ b2 ≠ wrap64 (b1 * 2) ∧ b1 ≠ wrap64 (b2 * 2)) :=
                  fun hc => hc.2.1 h2y
                rw [if_neg hgL, if_neg heq, if_neg h2x, if_neg hgR,
                  if_neg (show ¬(b2 = b1) from fun h => heq h.symm), if_pos h2y]
                exact congrArg some (score_symm _ _)
              · rw [if_pos ⟨heq, h2x, h2y⟩,
                  if_pos (show b2 ≠ b1 ∧ b2 ≠ wrap64 (b1 * 2) ∧ b1 ≠ wrap64 (b2 * 2) from
                    ⟨fun h => heq h.symm, h2y, h2x⟩)]
    · rw [if_pos (Or.inr hlb), if_pos (Or.inl hlb)]
  · rw [if_pos (Or.inl hla), if_pos (Or.inr hla)]

theorem estimateBlockSizeLoop_exit (size K : Nat) (hK : size ≤ 3 * 2 ^ K * 64)
    (hmin : ∀ j, j < K → 3 * 2 ^ j * 64 < size) (hK30 : K ≤ 30) :
    ∀ (d f j : Nat), j + d = K → d < f →
    estimateBlockSizeLoop f (3 * 2 ^ j) size = some (3 * 2 ^ K) := by
  intro d
  induction d with
  | zero =>
    intro f j hj hf
    obtain rfl : j = K := by omega
    match f, hf with
    | f + 1, _ =>
      simp only [estimateBlockSizeLoop, spamSumLength]
      rw [if_neg (by omega)]
  | succ d ih =>
    intro f j hj hf
    match f, hf with
    | f + 1, hf =>
      simp only [estimateBlockSizeLoop, spamSumLength]
      rw [if_pos (hmin j (by omega))]
      have hmul : mul32 (3 * 2 ^ j) 2 = 3 * 2 ^ (j + 1) := by
        have hpow : 3 * 2 ^ j * 2 = 3 * 2 ^ (j + 1) := by rw [pow_succ]; ring
        have hlt : 3 * 2 ^ (j + 1) < U32 := by
          have h1 : (2 : Nat) ^ (j + 1) ≤ 2 ^ 30 := Nat.pow_le_pow_right (by norm_num) (by omega)
          unfold U32
          omega
        rw [mul32, hpow, Nat.mod_eq_of_lt hlt]
      rw [hmul]
      exact ih f (j + 1) (by omega) (by omega)

/-- C7 (amended): for every total size not exceeding 3·2^36 — the largest size
for which the `uint32` doubling in `estimateBlockSize` does not overflow — the
loop exits (with any fuel beyond the iterations needed, in particular the
result is fuel-independent) and returns the smallest value of the form
`3 * 2^k` whose product with 64 is at least the total size. -/
theorem estimateBlockSize_smallest (size : Nat) (hsize : size ≤ 3 * 2 ^ 36) :
    ∃ k, k ≤ 30 ∧ estimateBlockSize size = some (3 * 2 ^ k) ∧
      size ≤ 3 * 2 ^ k * 64 ∧ ∀ j, j < k → 3 * 2 ^ j * 64 < size := by
  have h36 : (3 : Nat) * 2 ^ 30 * 64 = 3 * 2 ^ 36 := by norm_num
  have hex : ∃ k, size ≤ 3 * 2 ^ k * 64 := ⟨30, by omega⟩
  have hK : size ≤ 3 * 2 ^ (Nat.find hex) * 64 := Nat.find_spec hex
  have hmin : ∀ j, j < Nat.find hex → 3 * 2 ^ j * 64 < size := by
    intro j hj
    have := Nat.find_min hex hj
    omega
  have hK30 : Nat.find hex ≤ 30 := Nat.find_min' hex (by omega)
  refine ⟨Nat.find hex, hK30, ?_, hK, hmin⟩
  have h := estimateBlockSizeLoop_exit size (Nat.find hex) hK hmin hK30
    (Nat.find hex) 64 0 (by omega) (by omega)
  simpa [estimateBlockSize, minBlockSize] using h

/-- Witness for C7 at the concrete size 1000 (the loop stops at block size 24). -/
theorem estimateBlockSize_smallest_witness :
    ∃ k, k ≤ 30 ∧ estimateBlockSize 1000 = some (3 * 2 ^ k) ∧
      1000 ≤ 3 * 2 ^ k * 64 ∧ ∀ j, j < k → 3 * 2 ^ j * 64 < 1000 :=
  estimateBlockSize_smallest 1000 (by norm_num)

theorem estimateBlockSizeLoop_zero (size : Nat) (h : 0 < size) :
    ∀ f, estimateBlockSizeLoop f 0 size = none := by
  intro f
  induction f with
  | zero => rfl
  | succ f ih =>
    simp only [estimateBlockSizeLoop, spamSumLength]
    rw [if_pos (by omega)]
    simpa [mul32] using ih

theorem estimateBlockSizeLoop_pow31 :
    ∀ f, estimateBlockSizeLoop f (2 ^ 31) (3 * 2 ^ 36 + 1) = none := by
  intro f
  cases f with
  | zero => rfl
  | succ f =>
    simp only [estimateBlockSizeLoop, spamSumLength]
    rw [if_pos (by norm_num)]
    rw [show mul32 (2 ^ 31) 2 = 0 from by norm_num [mul32, U32]]
    exact estimateBlockSizeLoop_zero _ (by norm_num) f

theorem estimateBlockSizeLoop_none_aux :
    ∀ d, d ≤ 30 → ∀ f, estimateBlockSizeLoop f (3 * 2 ^ (30 - d)) (3 * 2 ^ 36 + 1) = none := by
  intro d
  induction d with
  | zero =>
    intro _ f
    cases f with
    | zero => rfl
    | succ f =>
      simp only [estimateBlockSizeLoop, spamSumLength]
      rw [if_pos (by norm_num)]
      rw [show mul32 (3 * 2 ^ (30 - 0)) 2 = 2 ^ 31 from by norm_num [mul32, U32]]
      exact estimateBlockSizeLoop_pow31 f
  | succ d ih =>
    intro hd f
    cases f with
    | zero => rfl
    | succ f =>
      simp only [estimateBlockSizeLoop, spamSumLength]
      have hle : (2 : Nat) ^ (30 - (d + 1)) ≤ 2 ^ 30 := Nat.pow_le_pow_right (by norm_num) (by omega)
      have h36 : (2 : Nat) ^ 36 = 64 * 2 ^ 30 := by norm_num
      rw [if_pos (by omega)]
      have hmul : mul32 (3 * 2 ^ (30 - (d + 1))) 2 = 3 * 2 ^ (30 - d) := by
        have hpow : 3 * 2 ^ (30 - (d + 1)) * 2 = 3 * 2 ^ (30 - d) := by
          rw [mul_assoc, ← pow_succ]
          congr 2
          omega
        have hlt : 3 * 2 ^ (30 - d) < U32 := by
          have h1 : (2 : Nat) ^ (30 - d) ≤ 2 ^ 30 := Nat.pow_le_pow_right (by norm_num) (by omega)
          unfold U32
          omega
        rw [mul32, hpow, Nat.mod_eq_of_lt hlt]
      rw [hmul]
      exact ih (by omega) f

/-- Counterexample for C7 as stated: at total size 3·2^36 + 1 the `uint32`
doubling overflows (3·2^31 wraps to 2^31, the next doubling to 0, which is
absorbing), so the loop never exits — `estimateBlockSize` returns no block
size at all for this input, whatever the fuel. -/
theorem estimateBlockSize_diverges :
    estimateBlockSize (3 * 2 ^ 36 + 1) = none ∧
      ∀ fuel, estimateBlockSizeLoop fuel minBlockSize (3 * 2 ^ 36 + 1) = none := by
  have h := estimateBlockSizeLoop_none_aux 30 le_rfl
  have h3 : (3 : Nat) * 2 ^ (30 - 30) = minBlockSize := by norm_num [minBlockSize]
  rw [h3] at h
  exact ⟨h 64, h⟩

theorem writeByte_hash_length (bs1 bs2 : Nat) (acc : SsdeepState × Nat) (c : Nat)
    (h1 : acc.1.hash1.length ≤ 64) (h2 : acc.1.hash2.length ≤ 64) :
    (writeByte bs1 bs2 acc c).1.hash1.length ≤ 64 ∧
    (writeByte bs1 bs2 acc c).1.hash2.length ≤ 64 := by
  simp only [writeByte, spamSumLength]
  split_ifs <;> simp_all <;> omega

theorem foldl_writeByte_hash_length (bs1 bs2 : Nat) :
    ∀ (data : List Nat) (acc : SsdeepState × Nat),
    acc.1.hash1.length ≤ 64 → acc.1.hash2.length ≤ 64 →
    (data.foldl (writeByte bs1 bs2) acc).1.hash1.length ≤ 64 ∧
    (data.foldl (writeByte bs1 bs2) acc).1.hash2.length ≤ 64 := by
  intro data
  induction data with
  | nil => intro acc h1 h2; exact ⟨h1, h2⟩
  | cons c data ih =>
    intro acc h1 h2
    rw [List.foldl_cons]
    have hstep := writeByte_hash_length bs1 bs2 acc c h1 h2
    exact ih (writeByte bs1 bs2 acc c) hstep.1 hstep.2

/-- C9: the 64-character cap is an invariant of the accumulator buffers — it is
preserved by every `Write` call, and the two segments emitted by `Sum` (which
appends at most one flush character, and only when the buffer is still below
the cap) also respect it. -/
theorem digest_segments_le_64 (st : SsdeepState) (data : List Nat)
    (h1 : st.hash1.length ≤ 64) (h2 : st.hash2.length ≤ 64) :
    (ssdeepWrite st data).hash1.length ≤ 64 ∧
    (ssdeepWrite st data).hash2.length ≤ 64 ∧
    (sumR1 (ssdeepWrite st data)).length ≤ 64 ∧
    (sumR2 (ssdeepWrite st data)).length ≤ 64 := by
  have hw := foldl_writeByte_hash_length st.blockSize (mul32 st.blockSize 2) data
    (st, st.n % windowSize) h1 h2
  unfold ssdeepWrite
  refine ⟨hw.1, hw.2, ?_, ?_⟩
  · unfold sumR1
    split_ifs with hc
    · simp only [List.length_append, List.length_singleton]
      have := hc.2
      simp only [spamSumLength] at this
      omega
    · exact hw.1
  · unfold sumR2
    split_ifs with hc
    · simp only [List.length_append, List.length_singleton]
      have := hc.2
      simp only [spamSumLength] at this
      omega
    · exact hw.2

/-- Witness for C9 at a concrete state and input. -/
theorem digest_segments_le_64_witness :
    (ssdeepWrite (newSSDeepState 3) [1, 2, 3]).hash1.length ≤ 64 ∧
    (ssdeepWrite (newSSDeepState 3) [1, 2, 3]).hash2.length ≤ 64 ∧
    (sumR1 (ssdeepWrite (newSSDeepState 3) [1, 2, 3])).length ≤ 64 ∧
    (sumR2 (ssdeepWrite (newSSDeepState 3) [1, 2, 3])).length ≤ 64 :=
  digest_segments_le_64 (newSSDeepState 3) [1, 2, 3] (by decide) (by decide)

theorem writeByte_aux_fields (bs1 bs2 : Nat) (acc : SsdeepState × Nat) (c : Nat) :
    (writeByte bs1 bs2 acc c).1.n = (acc.1.n + 1) % U32 ∧
    (writeByte bs1 bs2 acc c).2 = (if acc.2 + 1 = windowSize then 0 else acc.2 + 1) ∧
    (writeByte bs1 bs2 acc c).1.blockSize = acc.1.blockSize := by
  simp only [writeByte]
  split_ifs <;> simp_all

theorem foldl_writeByte_state (bs1 bs2 : Nat) :
    ∀ (data : List Nat) (acc : SsdeepState × Nat),
    acc.2 = acc.1.n % windowSize → acc.1.n + data.length < U32 →
    (data.foldl (writeByte bs1 bs2) acc).2 =
        (data.foldl (writeByte bs1 bs2) acc).1.n % windowSize ∧
    (data.foldl (writeByte bs1 bs2) acc).1.n = acc.1.n + data.length ∧
    (data.foldl (writeByte bs1 bs2) acc).1.blockSize = acc.1.blockSize := by
  intro data
  induction data with
  | nil => intro acc hw hn; exact ⟨hw, by simp, rfl⟩
  | cons c data ih =>
    intro acc hw hn
    rw [List.foldl_cons]
    obtain ⟨ha, hb, hc⟩ := writeByte_aux_fields bs1 bs2 acc c
    have hn1 : acc.1.n + 1 < U32 := by
      simp only [List.length_cons] at hn
      omega
    have ha' : (writeByte bs1 bs2 acc c).1.n = acc.1.n + 1 := by
      rw [ha, Nat.mod_eq_of_lt hn1]
    have hw' : (writeByte bs1 bs2 acc c).2 = (writeByte bs1 bs2 acc c).1.n % windowSize := by
      rw [hb, ha', hw]
      simp only [windowSize]
      split_ifs <;> omega
    have hn' : (writeByte bs1 bs2 acc c).1.n + data.length < U32 := by
      rw [ha']
      simp only [List.length_cons] at hn
      omega
    obtain ⟨r1, r2, r3⟩ := ih (writeByte bs1 bs2 acc c) hw' hn'
    refine ⟨r1, ?_, by rw [r3, hc]⟩
    rw [r2, ha']
    simp only [List.length_cons]
    omega

/-- Chunked writing agrees with one whole write (as long as the `uint32` byte
counter does not wrap): this is why feeding the state through `io.Copy` in
32-KiB chunks produces the same digest as writing the entire buffer at once. -/
theorem ssdeepWrite_append (st : SsdeepState) (a b : List Nat)
    (hn : st.n + a.length < U32) :
    ssdeepWrite st (a ++ b) = ssdeepWrite (ssdeepWrite st a) b := by
  unfold ssdeepWrite
  rw [List.foldl_append]
  obtain ⟨hw, _, hbs⟩ := foldl_writeByte_state st.blockSize (mul32 st.blockSize 2) a
    (st, st.n % windowSize) rfl hn
  rw [hbs, ← hw]

/-- C3 evidence: the byte-hashing entry point rejects the empty input — it
takes the `fixedSize <= 0` error return of `sumWithFixedSize` (`ErrEmptyData`)
instead of producing the digest `"3::"`. -/
theorem bytes_empty_is_error : Bytes [] = none := rfl

theorem ssdeepWrite_n (st : SsdeepState) (a : List Nat) (h : st.n + a.length < U32) :
    (ssdeepWrite st a).n = st.n + a.length := by
  unfold ssdeepWrite
  exact (foldl_writeByte_state st.blockSize (mul32 st.blockSize 2) a
    (st, st.n % windowSize) rfl h).2.1

/-- While the `uint32` byte counter cannot wrap, `io.Copy`'s chunked writes
compute the same state as one whole write. -/
theorem copyChunksAux_eq_ssdeepWrite :
    ∀ (fuel : Nat) (data : List Nat) (st : SsdeepState),
    data.length < fuel → st.n + data.length < U32 →
    copyChunksAux fuel st data = ssdeepWrite st data := by
  intro fuel
  induction fuel with
  | zero => intro data st h _; exact absurd h (Nat.not_lt_zero _)
  | succ fuel ih =>
    intro data st hf hn
    by_cases hd : data = []
    · subst hd
      simp only [copyChunksAux, if_pos rfl]
      rfl
    · simp only [copyChunksAux, if_neg hd]
      have htake : (data.take copyChunkSize).length = min copyChunkSize data.length :=
        List.length_take _ _
      have hdrop : (data.drop copyChunkSize).length = data.length - copyChunkSize :=
        List.length_drop _ _
      have hlen1 : 1 ≤ data.length := by
        cases data
        · exact absurd rfl hd
        · simp
      have hchunk : copyChunkSize = 32768 := rfl
      have hn_take : st.n + (data.take copyChunkSize).length < U32 := by omega
      have hwn := ssdeepWrite_n st (data.take copyChunkSize) hn_take
      have hn' : (ssdeepWrite st (data.take copyChunkSize)).n +
          (data.drop copyChunkSize).length < U32 := by
        rw [hwn]
        omega
      have hf' : (data.drop copyChunkSize).length < fuel := by omega
      rw [ih (data.drop copyChunkSize) (ssdeepWrite st (data.take copyChunkSize)) hf' hn']
      rw [← ssdeepWrite_append st _ _ hn_take, List.take_append_drop]

theorem copyChunks_eq_ssdeepWrite (st : SsdeepState) (data : List Nat)
    (hn : st.n + data.length < U32) : copyChunks st data = ssdeepWrite st data :=
  copyChunksAux_eq_ssdeepWrite (data.length + 1) data st (by omega) hn

/-- C8 (amended): for every non-empty byte sequence shorter than 2^32 bytes —
so that the `uint32` byte counter cannot wrap between `io.Copy`'s chunked
writes — hashing through the non-seekable streaming path, with any cache
threshold and in particular one below the data size (which forces the
spooled-storage branch), produces the identical result as hashing the
materialized buffer with `Bytes`. -/
theorem stream_eq_bytes (data : List Nat) (cachedSize : Nat) (hne : data ≠ [])
    (hlen : data.length < U32) :
    StreamNonSeekable data cachedSize = Bytes data := by
  have hlen0 : data.length ≠ 0 := fun h => hne (List.length_eq_zero.mp h)
  have hcc : ∀ bs : Nat, copyChunks (newSSDeepState bs) data =
      ssdeepWrite (newSSDeepState bs) data := fun bs =>
    copyChunks_eq_ssdeepWrite (newSSDeepState bs) data (by simpa [newSSDeepState] using hlen)
  unfold StreamNonSeekable readAll srContents Bytes sumWithFixedSize
  rw [if_neg hlen0]
  by_cases hsp : (if cachedSize < minCachedSize then minCachedSize else cachedSize) < data.length
  · rw [if_pos hsp]
    dsimp only
    rcases hbs : estimateBlockSize data.length with _ | bs
    · rfl
    · exact congrArg (fun st => some (ssdeepSum st)) (hcc bs)
  · rw [if_neg hsp]
    dsimp only
    rcases hbs : estimateBlockSize data.length with _ | bs
    · rfl
    · exact congrArg (fun st => some (ssdeepSum st)) (hcc bs)

/-- Witness for C8 at a concrete non-empty input and a forced-spill threshold. -/
theorem stream_eq_bytes_witness : StreamNonSeekable [1, 2, 3] 0 = Bytes [1, 2, 3] :=
  stream_eq_bytes [1, 2, 3] 0 (by decide) (by decide)

/-- Counterexample for C8 as stated: at the empty byte sequence the streaming
path returns the digest `"3::"` with no error while `Bytes` returns the
`ErrEmptyData` error, so the two results differ. -/
theorem stream_empty_ne_bytes_empty :
    StreamNonSeekable [] 0 = some "3::" ∧ Bytes [] = none ∧
      StreamNonSeekable [] 0 ≠ Bytes [] := by
  refine ⟨by decide, rfl, by decide⟩

set_option maxRecDepth 8000 in
/-- C1 evidence: evaluating the byte-hashing entry point at the fixture input
"The quick brown fox jumps over the lazy dog" (43 bytes, not 44 as the claim
says).  The code produces the digest `"3:FJKKIUKact:FHIGi"` — the very digest
the repository's `Compare` fixtures use — and not the `"3:FJKKIUKacdn:FHIGM"`
that the spec fixture and the repository's own hash test expect. -/
theorem bytes_fox_digest :
    Bytes ("The quick brown fox jumps over the lazy dog".data.map Char.toNat) =
      some "3:FJKKIUKact:FHIGi" ∧
    ("3:FJKKIUKact:FHIGi" : String) ≠ "3:FJKKIUKacdn:FHIGM" := by
  exact ⟨by decide, by decide⟩

end Ssdeep
